/-
Verification of the forward-chaining inference engine in
`examples/simple-flag/src/main.rs` and `examples/basic-flag/src/main.rs`.

The two Rust programs are shallowly embedded below.  `HashMap` fields are
modelled as functions to `Option` (a `HashMap` is extensionally a partial
map; the code never iterates over them), the `HashSet` of active flags as a
`Finset Nat`, and the `Vec` of rules as a `List`.  `FlagId` is `u32` in the
source; it is modelled as `Nat`.  The only arithmetic on it is
`next_id += 1` during label interning, and a `u32` overflow there would
require 2^32 distinct labels and panics in a debug build, so wrap-around is
not modelled.  Console rendering (`println!`, `ptree`) is presentation glue
per the spec and is dropped; the data that those calls would render (the
per-tick derivation list, the trace tree) is kept as returned values.
-/
import Mathlib

namespace SimpleFlag

/-- Rust `type FlagId = u32` (simple-flag). -/
abbrev FlagId := Nat

/-- Rust `struct Rule { triggers: Vec<FlagId>, output: FlagId }` (simple-flag). -/
structure Rule where
  triggers : List FlagId
  output : FlagId
deriving DecidableEq

/-- Rust `enum Source { Input, Derived { causes: Vec<FlagId> } }` (simple-flag). -/
inductive Source where
  | input
  | derived (causes : List FlagId)
deriving DecidableEq

/-- Rust `struct Mind` (simple-flag): symbol table, rule store, active memory. -/
structure Mind where
  label_to_id : String → Option FlagId
  id_to_label : FlagId → Option String
  next_id : FlagId
  rules : List Rule
  active_memory : FlagId → Option Source

/-- Rust `Mind::new` (simple-flag). -/
def Mind.new : Mind where
  label_to_id := fun _ => none
  id_to_label := fun _ => none
  next_id := 1
  rules := []
  active_memory := fun _ => none

/-- Rust `HashMap::insert` on the active-memory map. -/
def insertMem (mem : FlagId → Option Source) (k : FlagId) (v : Source) :
    FlagId → Option Source :=
  fun k' => if k' = k then some v else mem k'

/-- Rust `Mind::id` (simple-flag): get the id for a label, interning it if new. -/
def Mind.id (m : Mind) (label : String) : Mind × FlagId :=
  match m.label_to_id label with
  | some i => (m, i)
  | none =>
    let i := m.next_id
    ({ m with
        next_id := m.next_id + 1
        label_to_id := fun l => if l = label then some i else m.label_to_id l
        id_to_label := fun j => if j = i then some label else m.id_to_label j },
     i)

/-- The `inputs.iter().map(|n| self.id(n)).collect()` loop of `Mind::learn`. -/
def internList (m : Mind) : List String → Mind × List FlagId
  | [] => (m, [])
  | n :: rest =>
    let (m', i) := m.id n
    let (m'', is) := internList m' rest
    (m'', i :: is)

/-- Rust `Mind::learn` (simple-flag): add a rule `A + B + ... -> C`. -/
def Mind.learn (m : Mind) (inputs : List String) (output : String) : Mind :=
  let (m1, t_ids) := internList m inputs
  let (m2, o_id) := m1.id output
  { m2 with rules := m2.rules ++ [{ triggers := t_ids, output := o_id }] }

/-- Rust `Mind::inject` (simple-flag): intern each label and insert `Input`. -/
def Mind.inject (m : Mind) : List String → Mind
  | [] => m
  | name :: rest =>
    let (m', i) := m.id name
    Mind.inject { m' with active_memory := insertMem m'.active_memory i .input } rest

/-- The rule-scan loop of `Mind::tick` (simple-flag): collect
`(output, triggers)` for every rule whose output is absent and whose
triggers are all present, in store order. -/
def scanRules (rules : List Rule) (mem : FlagId → Option Source) :
    List (FlagId × List FlagId) :=
  match rules with
  | [] => []
  | r :: rest =>
    if (mem r.output).isSome then scanRules rest mem
    else if r.triggers.all (fun t => (mem t).isSome) then
      (r.output, r.triggers) :: scanRules rest mem
    else scanRules rest mem

/-- The commit loop of `Mind::tick` (simple-flag): insert each new fact with
`Derived` provenance, in scan order. -/
def commitFacts (mem : FlagId → Option Source) :
    List (FlagId × List FlagId) → (FlagId → Option Source)
  | [] => mem
  | (o, cs) :: rest => commitFacts (insertMem mem o (.derived cs)) rest

/-- Rust `Mind::tick` (simple-flag): one inference cycle.  Returns the new state
and whether anything was derived.  (The `tick_count` parameter of the source
only feeds log output and is dropped.) -/
def Mind.tick (m : Mind) : Mind × Bool :=
  let new_facts := scanRules m.rules m.active_memory
  if new_facts.isEmpty then (m, false)
  else ({ m with active_memory := commitFacts m.active_memory new_facts }, true)

/-- The driver loop of `main` (simple-flag) / the spec's
`run_to_fixed_point`: call `tick` until it reports no change.  Fuel-indexed
to be a total function. -/
def runTicks : Nat → Mind → Mind
  | 0, m => m
  | n + 1, m =>
    match m.tick with
    | (m', true) => runTicks n m'
    | (m', false) => m'

/-- The tree built by `Mind::trace` / `build_tree_recursive` (simple-flag),
with identifiers in place of rendered label strings.  `truncated` marks fuel
exhaustion of the embedding (the Rust recursion carries no fuel). -/
inductive TraceTree where
  | node (id : FlagId) (children : List TraceTree)
  | truncated

/-- Rust `Mind::build_tree_recursive` (simple-flag): children of a node are its
recorded causes when its provenance is `Derived`, none otherwise. -/
def buildTree (m : Mind) : Nat → FlagId → TraceTree
  | 0, _ => .truncated
  | fuel + 1, i =>
    match m.active_memory i with
    | some (.derived causes) => .node i (causes.map (buildTree m fuel))
    | _ => .node i []

/-- The decision of one scan iteration of `Mind::tick` (simple-flag): the
rule passes the output-redundancy check and the AND gate against the given
memory. -/
def ruleFires (mem : FlagId → Option Source) (r : Rule) : Bool :=
  !(mem r.output).isSome && r.triggers.all (fun t => (mem t).isSome)

/-- Holds when `c` is one of the recorded causes of `d` in `m`'s active memory. -/
def CauseStep (m : Mind) (c d : FlagId) : Prop :=
  ∃ cs, m.active_memory d = some (.derived cs) ∧ c ∈ cs

/-- A rank function witnessing that recorded causes strictly decrease: every
present fact ranks below `bound`, and a `Derived` fact's causes are present,
rank strictly below it, and are the trigger list of some stored rule. -/
def GoodRank (m : Mind) (rank : FlagId → Nat) (bound : Nat) : Prop :=
  (∀ i, (m.active_memory i).isSome → rank i < bound) ∧
  (∀ i cs, m.active_memory i = some (.derived cs) →
    (∃ r ∈ m.rules, r.triggers = cs) ∧
      ∀ c ∈ cs, (m.active_memory c).isSome ∧ rank c < rank i)

/-- The tree carries no fuel-exhaustion marker anywhere. -/
def noTrunc : TraceTree → Bool
  | .node _ children => children.attach.all (fun c => noTrunc c.1)
  | .truncated => false
termination_by t => sizeOf t
decreasing_by
  have := List.sizeOf_lt_of_mem c.2
  simp only [TraceTree.node.sizeOf_spec]
  omega

/-- Every leaf (childless node) of the tree is an `Input`-provenance fact. -/
def leavesInput (m : Mind) : TraceTree → Bool
  | .truncated => false
  | .node i [] => decide (m.active_memory i = some .input)
  | .node _ (c :: cs) => (c :: cs).attach.all (fun x => leavesInput m x.1)
termination_by t => sizeOf t
decreasing_by
  have := List.sizeOf_lt_of_mem x.2
  simp only [TraceTree.node.sizeOf_spec]
  omega

/-- Result of `Mind::trace` (simple-flag), as data instead of console text. -/
inductive TraceResult where
  | unknownConcept
  | notInMemory
  | tree (t : TraceTree)

/-- Rust `Mind::trace` (simple-flag).  The receiver is `&self` in the source; the
state is threaded explicitly so that the frame property is a statement, not
a typing convention.  Every operation used (`label_to_id.get`,
`active_memory.contains_key`, `build_tree_recursive`) is a read. -/
def Mind.trace (m : Mind) (target : String) (fuel : Nat) : Mind × TraceResult :=
  match m.label_to_id target with
  | some i =>
    if (m.active_memory i).isSome then (m, .tree (buildTree m fuel i))
    else (m, .notInMemory)
  | none => (m, .unknownConcept)

/-- States of the simple-flag `Mind` reachable through its API. -/
inductive Reachable : Mind → Prop
  | new : Reachable Mind.new
  | learn (m : Mind) (inputs : List String) (output : String) :
      Reachable m → Reachable (m.learn inputs output)
  | inject (m : Mind) (names : List String) :
      Reachable m → Reachable (m.inject names)
  | tick (m : Mind) : Reachable m → Reachable m.tick.fst

end SimpleFlag

namespace BasicFlag

/-- Rust `type FlagId = u32` (basic-flag). -/
abbrev FlagId := Nat

/-- Rust `struct Link { triggers, forbids, output }` (basic-flag). -/
structure Link where
  triggers : List FlagId
  forbids : List FlagId
  output : FlagId
deriving DecidableEq

/-- Rust `struct Mind` (basic-flag): symbol table, links, active flag set. -/
structure Mind where
  label_to_id : String → Option FlagId
  id_to_label : FlagId → Option String
  next_id : FlagId
  links : List Link
  active_flags : Finset FlagId

/-- Rust `Mind::new` (basic-flag). -/
def Mind.new : Mind where
  label_to_id := fun _ => none
  id_to_label := fun _ => none
  next_id := 1
  links := []
  active_flags := ∅

/-- Rust `Mind::id` (basic-flag): get the id for a label, interning it if new. -/
def Mind.id (m : Mind) (label : String) : Mind × FlagId :=
  match m.label_to_id label with
  | some i => (m, i)
  | none =>
    let i := m.next_id
    ({ m with
        next_id := m.next_id + 1
        label_to_id := fun l => if l = label then some i else m.label_to_id l
        id_to_label := fun j => if j = i then some label else m.id_to_label j },
     i)

/-- The `.iter().map(|n| self.id(n)).collect()` loops of `Mind::rule`. -/
def internList (m : Mind) : List String → Mind × List FlagId
  | [] => (m, [])
  | n :: rest =>
    let (m', i) := m.id n
    let (m'', is) := internList m' rest
    (m'', i :: is)

/-- Rust `Mind::rule` (basic-flag): define `(A + B) - (C) -> D`. -/
def Mind.rule (m : Mind) (triggers forbids : List String) (output : String) : Mind :=
  let (m1, t_ids) := internList m triggers
  let (m2, f_ids) := internList m1 forbids
  let (m3, o_id) := m2.id output
  { m3 with links := m3.links ++ [{ triggers := t_ids, forbids := f_ids, output := o_id }] }

/-- Rust `Mind::reset_memory` (basic-flag). -/
def Mind.reset_memory (m : Mind) : Mind :=
  { m with active_flags := ∅ }

/-- Rust `Mind::inject` (basic-flag). -/
def Mind.inject (m : Mind) : List String → Mind
  | [] => m
  | name :: rest =>
    let (m', i) := m.id name
    Mind.inject { m' with active_flags := insert i m'.active_flags } rest

/-- The link-scan loop of `Mind::tick` (basic-flag): output-redundancy
check, then the AND gate over triggers, then the inhibition check, in store
order. -/
def scanLinks (links : List Link) (flags : Finset FlagId) :
    List (FlagId × List FlagId) :=
  match links with
  | [] => []
  | l :: rest =>
    if l.output ∈ flags then scanLinks rest flags
    else if ¬ l.triggers.all (fun t => t ∈ flags) then scanLinks rest flags
    else if l.forbids.any (fun f => f ∈ flags) then scanLinks rest flags
    else (l.output, l.triggers) :: scanLinks rest flags

/-- The commit loop of `Mind::tick` (basic-flag): insert each output (the
recorded causes only feed log output). -/
def commitFlags (flags : Finset FlagId) :
    List (FlagId × List FlagId) → Finset FlagId
  | [] => flags
  | (o, _) :: rest => commitFlags (insert o flags) rest

/-- Rust `Mind::tick` (basic-flag).  (`tick_count` only feeds log output and is
dropped.) -/
def Mind.tick (m : Mind) : Mind × Bool :=
  let new_activations := scanLinks m.links m.active_flags
  if new_activations.isEmpty then (m, false)
  else ({ m with active_flags := commitFlags m.active_flags new_activations }, true)

/-- Rust `Mind::ponder` (basic-flag): run `tick` until it stabilizes.
Fuel-indexed to be a total function. -/
def ponder : Nat → Mind → Mind
  | 0, m => m
  | n + 1, m =>
    match m.tick with
    | (m', true) => ponder n m'
    | (m', false) => m'

/-- The per-link evaluation of one scan iteration of `Mind::tick`
(basic-flag): the link passes the redundancy check, the AND gate, and the
inhibition check against the given flag set. -/
def linkFires (flags : Finset FlagId) (l : Link) : Bool :=
  !(decide (l.output ∈ flags)) &&
    l.triggers.all (fun t => decide (t ∈ flags)) &&
    !(l.forbids.any (fun f => decide (f ∈ flags)))

/-- Invariant on basic-flag states: every active flag, every link output,
and every value of the label map is an identifier that was interned
(`1 <= id < next_id`). -/
def IdsInRange (m : Mind) : Prop :=
  1 ≤ m.next_id ∧
  (∀ f ∈ m.active_flags, 1 ≤ f ∧ f < m.next_id) ∧
  (∀ l ∈ m.links, 1 ≤ l.output ∧ l.output < m.next_id) ∧
  (∀ lbl i, m.label_to_id lbl = some i → 1 ≤ i ∧ i < m.next_id)

/-- States of the basic-flag `Mind` reachable through its API. -/
inductive Reachable : Mind → Prop
  | new : Reachable Mind.new
  | rule (m : Mind) (triggers forbids : List String) (output : String) :
      Reachable m → Reachable (m.rule triggers forbids output)
  | reset (m : Mind) : Reachable m → Reachable m.reset_memory
  | inject (m : Mind) (names : List String) :
      Reachable m → Reachable (m.inject names)
  | tick (m : Mind) : Reachable m → Reachable m.tick.fst

end BasicFlag


/-- A concrete simple-flag state used to probe rule-order dependence: rules
`A -> C` and `B -> C` (ids `A = 1`, `C = 2`, `B = 3`) with `A` and `B`
injected. -/
def permBase : SimpleFlag.Mind :=
  ((SimpleFlag.Mind.new.learn ["A"] "C").learn ["B"] "C").inject ["A", "B"]

/-- The same state with the two rules in the opposite store order. -/
def permSwapped : SimpleFlag.Mind :=
  { permBase with rules := permBase.rules.reverse }

/-! ### Helper lemmas: simple-flag scan, commit, tick -/

theorem simple_scanRules_eq (rules : List SimpleFlag.Rule)
    (mem : SimpleFlag.FlagId → Option SimpleFlag.Source) :
    SimpleFlag.scanRules rules mem =
      (rules.filter (fun r => SimpleFlag.ruleFires mem r)).map
        (fun r => (r.output, r.triggers)) := by
  induction rules with
  | nil => rfl
  | cons r rest ih =>
    by_cases h1 : (mem r.output).isSome
    · have hf : ¬ (SimpleFlag.ruleFires mem r = true) := by
        simp [SimpleFlag.ruleFires, h1]
      rw [SimpleFlag.scanRules, if_pos h1, ih, List.filter_cons_of_neg hf]
    · by_cases h2 : r.triggers.all (fun t => (mem t).isSome) = true
      · have hf : SimpleFlag.ruleFires mem r = true := by
          simp [SimpleFlag.ruleFires, h1, h2]
        rw [SimpleFlag.scanRules, if_neg h1, if_pos h2, ih,
          List.filter_cons_of_pos hf, List.map_cons]
      · have hf : ¬ (SimpleFlag.ruleFires mem r = true) := by
          simp [SimpleFlag.ruleFires, h1, h2]
        rw [SimpleFlag.scanRules, if_neg h1, if_neg h2, ih,
          List.filter_cons_of_neg hf]

theorem simple_scanRules_mem_iff {rules : List SimpleFlag.Rule}
    {mem : SimpleFlag.FlagId → Option SimpleFlag.Source}
    {o : SimpleFlag.FlagId} {cs : List SimpleFlag.FlagId} :
    (o, cs) ∈ SimpleFlag.scanRules rules mem ↔
      ∃ r ∈ rules, SimpleFlag.ruleFires mem r = true ∧
        r.output = o ∧ r.triggers = cs := by
  rw [simple_scanRules_eq]
  simp only [List.mem_map, List.mem_filter, Prod.mk.injEq]
  constructor
  · rintro ⟨r, ⟨hr, hf⟩, ho, ht⟩
    exact ⟨r, hr, hf, ho, ht⟩
  · rintro ⟨r, hr, hf, ho, ht⟩
    exact ⟨r, ⟨hr, hf⟩, ho, ht⟩

theorem simple_scanRules_eq_nil_iff {rules : List SimpleFlag.Rule}
    {mem : SimpleFlag.FlagId → Option SimpleFlag.Source} :
    SimpleFlag.scanRules rules mem = [] ↔
      ∀ r ∈ rules, SimpleFlag.ruleFires mem r = false := by
  rw [simple_scanRules_eq]
  rw [List.map_eq_nil_iff, List.filter_eq_nil_iff]
  constructor
  · intro h r hr
    exact Bool.eq_false_iff.mpr (fun hc => h r hr (by simp [hc]))
  · intro h r hr
    simp [h r hr]

theorem simple_scanRules_output_none {rules : List SimpleFlag.Rule}
    {mem : SimpleFlag.FlagId → Option SimpleFlag.Source}
    {o : SimpleFlag.FlagId} {cs : List SimpleFlag.FlagId}
    (h : (o, cs) ∈ SimpleFlag.scanRules rules mem) : mem o = none := by
  obtain ⟨r, -, hf, ho, -⟩ := simple_scanRules_mem_iff.mp h
  rw [SimpleFlag.ruleFires, Bool.and_eq_true, Bool.not_eq_true'] at hf
  rw [← ho, ← Option.not_isSome_iff_eq_none, hf.1]
  exact Bool.false_ne_true

theorem simple_commitFacts_of_forall_ne
    {mem : SimpleFlag.FlagId → Option SimpleFlag.Source}
    {facts : List (SimpleFlag.FlagId × List SimpleFlag.FlagId)}
    {i : SimpleFlag.FlagId} (h : ∀ p ∈ facts, p.1 ≠ i) :
    SimpleFlag.commitFacts mem facts i = mem i := by
  induction facts generalizing mem with
  | nil => rfl
  | cons p rest ih =>
    obtain ⟨o, cs⟩ := p
    have ho : o ≠ i := h (o, cs) (List.mem_cons_self _ _)
    rw [SimpleFlag.commitFacts, ih (fun q hq => h q (List.mem_cons_of_mem _ hq))]
    simp [SimpleFlag.insertMem, Ne.symm ho]

theorem simple_commitFacts_isSome
    {mem : SimpleFlag.FlagId → Option SimpleFlag.Source}
    {facts : List (SimpleFlag.FlagId × List SimpleFlag.FlagId)}
    {i : SimpleFlag.FlagId} :
    (SimpleFlag.commitFacts mem facts i).isSome ↔
      (mem i).isSome ∨ ∃ cs, (i, cs) ∈ facts := by
  induction facts generalizing mem with
  | nil => simp [SimpleFlag.commitFacts]
  | cons p rest ih =>
    obtain ⟨o, cs⟩ := p
    rw [SimpleFlag.commitFacts, ih]
    by_cases h : i = o
    · subst h
      have hL : (SimpleFlag.insertMem mem i (.derived cs) i).isSome := by
        simp [SimpleFlag.insertMem]
      have hR : ∃ cs', (i, cs') ∈ (i, cs) :: rest := ⟨cs, List.mem_cons_self _ _⟩
      exact ⟨fun _ => Or.inr hR, fun _ => Or.inl hL⟩
    · simp only [SimpleFlag.insertMem, if_neg h, List.mem_cons, Prod.mk.injEq]
      constructor
      · rintro (hs | ⟨cs', hcs'⟩)
        · exact Or.inl hs
        · exact Or.inr ⟨cs', Or.inr hcs'⟩
      · rintro (hs | ⟨cs', (⟨hio, -⟩ | hcs')⟩)
        · exact Or.inl hs
        · exact absurd hio h
        · exact Or.inr ⟨cs', hcs'⟩

theorem simple_tick_preserves {m : SimpleFlag.Mind} {i : SimpleFlag.FlagId}
    {s : SimpleFlag.Source} (h : m.active_memory i = some s) :
    m.tick.fst.active_memory i = some s := by
  rw [SimpleFlag.Mind.tick]
  by_cases he : (SimpleFlag.scanRules m.rules m.active_memory).isEmpty
  · simp only [he, if_pos]
    exact h
  · simp only [he, Bool.false_eq_true, if_false]
    rw [simple_commitFacts_of_forall_ne]
    · exact h
    · rintro ⟨o, cs⟩ hp rfl
      have := simple_scanRules_output_none hp
      rw [this] at h
      exact Option.noConfusion h

theorem simple_tick_rules (m : SimpleFlag.Mind) : m.tick.fst.rules = m.rules := by
  rw [SimpleFlag.Mind.tick]
  split <;> rfl

theorem simple_tick_isSome_iff {m : SimpleFlag.Mind} {i : SimpleFlag.FlagId} :
    (m.tick.fst.active_memory i).isSome ↔
      (m.active_memory i).isSome ∨
        ∃ r ∈ m.rules, SimpleFlag.ruleFires m.active_memory r = true ∧
          r.output = i := by
  rw [SimpleFlag.Mind.tick]
  by_cases he : (SimpleFlag.scanRules m.rules m.active_memory).isEmpty
  · rw [List.isEmpty_iff] at he
    have hnone : ∀ r ∈ m.rules, SimpleFlag.ruleFires m.active_memory r = false :=
      simple_scanRules_eq_nil_iff.mp he
    rw [he]
    simp only [List.isEmpty_nil, if_pos]
    constructor
    · exact Or.inl
    · rintro (h | ⟨r, hr, hf, -⟩)
      · exact h
      · rw [hnone r hr] at hf
        exact Bool.noConfusion hf
  · simp only [he, Bool.false_eq_true, if_false]
    rw [simple_commitFacts_isSome]
    constructor
    · rintro (h | ⟨cs, hcs⟩)
      · exact Or.inl h
      · obtain ⟨r, hr, hf, ho, -⟩ := simple_scanRules_mem_iff.mp hcs
        exact Or.inr ⟨r, hr, hf, ho⟩
    · rintro (h | ⟨r, hr, hf, ho⟩)
      · exact Or.inl h
      · exact Or.inr ⟨r.triggers, simple_scanRules_mem_iff.mpr ⟨r, hr, hf, ho, rfl⟩⟩

theorem simple_tick_snd_iff {m : SimpleFlag.Mind} :
    m.tick.snd = true ↔
      ∃ r ∈ m.rules, SimpleFlag.ruleFires m.active_memory r = true := by
  rw [SimpleFlag.Mind.tick]
  by_cases he : (SimpleFlag.scanRules m.rules m.active_memory).isEmpty
  · rw [List.isEmpty_iff] at he
    have hnone := simple_scanRules_eq_nil_iff.mp he
    rw [he]
    simp only [List.isEmpty_nil, if_pos]
    constructor
    · intro h
      exact Bool.noConfusion h
    · rintro ⟨r, hr, hf⟩
      rw [hnone r hr] at hf
      exact Bool.noConfusion hf
  · simp only [he, Bool.false_eq_true, if_false, true_iff]
    rw [List.isEmpty_iff] at he
    rcases hs : SimpleFlag.scanRules m.rules m.active_memory with - | ⟨⟨o, cs⟩, rest⟩
    · exact absurd hs he
    · have hmem : (o, cs) ∈ SimpleFlag.scanRules m.rules m.active_memory := by
        rw [hs]
        exact List.mem_cons_self _ _
      obtain ⟨r, hr, hf, -, -⟩ := simple_scanRules_mem_iff.mp hmem
      exact ⟨r, hr, hf⟩

theorem simple_tick_fst_of_false {m : SimpleFlag.Mind}
    (h : m.tick.snd = false) : m.tick.fst = m := by
  rw [SimpleFlag.Mind.tick] at h ⊢
  by_cases he : (SimpleFlag.scanRules m.rules m.active_memory).isEmpty
  · simp only [he, if_pos]
  · simp only [he, Bool.false_eq_true, if_false] at h
    exact Bool.noConfusion h

/-! ### Helper lemmas: basic-flag scan, commit, tick -/

theorem basic_scanLinks_eq (links : List BasicFlag.Link)
    (flags : Finset BasicFlag.FlagId) :
    BasicFlag.scanLinks links flags =
      (links.filter (fun l => BasicFlag.linkFires flags l)).map
        (fun l => (l.output, l.triggers)) := by
  induction links with
  | nil => rfl
  | cons l rest ih =>
    by_cases h1 : l.output ∈ flags
    · have hf : ¬ (BasicFlag.linkFires flags l = true) := by
        simp [BasicFlag.linkFires, h1]
      rw [BasicFlag.scanLinks, if_pos h1, ih, List.filter_cons_of_neg hf]
    · by_cases h2 : l.triggers.all (fun t => decide (t ∈ flags)) = true
      · by_cases h3 : l.forbids.any (fun f => decide (f ∈ flags)) = true
        · have hf : ¬ (BasicFlag.linkFires flags l = true) := by
            simp [BasicFlag.linkFires, h3]
          rw [BasicFlag.scanLinks, if_neg h1, if_neg (by simpa using h2),
            if_pos (by simpa using h3), ih, List.filter_cons_of_neg hf]
        · have hf : BasicFlag.linkFires flags l = true := by
            simp only [BasicFlag.linkFires, Bool.and_eq_true, Bool.not_eq_true']
            refine ⟨⟨by simpa using h1, h2⟩, ?_⟩
            simpa using h3
          rw [BasicFlag.scanLinks, if_neg h1, if_neg (by simpa using h2),
            if_neg (by simpa using h3), ih, List.filter_cons_of_pos hf,
            List.map_cons]
      · have hf : ¬ (BasicFlag.linkFires flags l = true) := by
          simp [BasicFlag.linkFires, h2]
        rw [BasicFlag.scanLinks, if_neg h1, if_pos (by simpa using h2), ih,
          List.filter_cons_of_neg hf]

theorem basic_scanLinks_mem_iff {links : List BasicFlag.Link}
    {flags : Finset BasicFlag.FlagId}
    {o : BasicFlag.FlagId} {cs : List BasicFlag.FlagId} :
    (o, cs) ∈ BasicFlag.scanLinks links flags ↔
      ∃ l ∈ links, BasicFlag.linkFires flags l = true ∧
        l.output = o ∧ l.triggers = cs := by
  rw [basic_scanLinks_eq]
  simp only [List.mem_map, List.mem_filter, Prod.mk.injEq]
  constructor
  · rintro ⟨l, ⟨hl, hf⟩, ho, ht⟩
    exact ⟨l, hl, hf, ho, ht⟩
  · rintro ⟨l, hl, hf, ho, ht⟩
    exact ⟨l, ⟨hl, hf⟩, ho, ht⟩

theorem basic_scanLinks_eq_nil_iff {links : List BasicFlag.Link}
    {flags : Finset BasicFlag.FlagId} :
    BasicFlag.scanLinks links flags = [] ↔
      ∀ l ∈ links, BasicFlag.linkFires flags l = false := by
  rw [basic_scanLinks_eq]
  rw [List.map_eq_nil_iff, List.filter_eq_nil_iff]
  constructor
  · intro h l hl
    exact Bool.eq_false_iff.mpr (fun hc => h l hl (by simp [hc]))
  · intro h l hl
    simp [h l hl]

theorem basic_scanLinks_output_not_mem {links : List BasicFlag.Link}
    {flags : Finset BasicFlag.FlagId}
    {o : BasicFlag.FlagId} {cs : List BasicFlag.FlagId}
    (h : (o, cs) ∈ BasicFlag.scanLinks links flags) : o ∉ flags := by
  obtain ⟨l, -, hf, ho, -⟩ := basic_scanLinks_mem_iff.mp h
  rw [BasicFlag.linkFires, Bool.and_eq_true, Bool.and_eq_true,
    Bool.not_eq_true'] at hf
  rw [← ho]
  simpa using hf.1.1

theorem basic_commitFlags_mem_iff {flags : Finset BasicFlag.FlagId}
    {acts : List (BasicFlag.FlagId × List BasicFlag.FlagId)}
    {i : BasicFlag.FlagId} :
    i ∈ BasicFlag.commitFlags flags acts ↔
      i ∈ flags ∨ ∃ cs, (i, cs) ∈ acts := by
  induction acts generalizing flags with
  | nil => simp [BasicFlag.commitFlags]
  | cons p rest ih =>
    obtain ⟨o, cs⟩ := p
    rw [BasicFlag.commitFlags, ih]
    by_cases h : i = o
    · subst h
      have hR : ∃ cs', (i, cs') ∈ (i, cs) :: rest := ⟨cs, List.mem_cons_self _ _⟩
      exact ⟨fun _ => Or.inr hR, fun _ => Or.inl (Finset.mem_insert_self _ _)⟩
    · simp only [Finset.mem_insert, List.mem_cons, Prod.mk.injEq]
      constructor
      · rintro ((hio | hm) | ⟨cs', hcs'⟩)
        · exact absurd hio h
        · exact Or.inl hm
        · exact Or.inr ⟨cs', Or.inr hcs'⟩
      · rintro (hm | ⟨cs', (⟨hio, -⟩ | hcs')⟩)
        · exact Or.inl (Or.inr hm)
        · exact absurd hio h
        · exact Or.inr ⟨cs', hcs'⟩

theorem basic_tick_mem_iff {m : BasicFlag.Mind} {i : BasicFlag.FlagId} :
    i ∈ m.tick.fst.active_flags ↔
      i ∈ m.active_flags ∨
        ∃ l ∈ m.links, BasicFlag.linkFires m.active_flags l = true ∧
          l.output = i := by
  rw [BasicFlag.Mind.tick]
  by_cases he : (BasicFlag.scanLinks m.links m.active_flags).isEmpty
  · rw [List.isEmpty_iff] at he
    have hnone := basic_scanLinks_eq_nil_iff.mp he
    rw [he]
    simp only [List.isEmpty_nil, if_pos]
    constructor
    · exact Or.inl
    · rintro (h | ⟨l, hl, hf, -⟩)
      · exact h
      · rw [hnone l hl] at hf
        exact Bool.noConfusion hf
  · simp only [he, Bool.false_eq_true, if_false]
    rw [basic_commitFlags_mem_iff]
    constructor
    · rintro (h | ⟨cs, hcs⟩)
      · exact Or.inl h
      · obtain ⟨l, hl, hf, ho, -⟩ := basic_scanLinks_mem_iff.mp hcs
        exact Or.inr ⟨l, hl, hf, ho⟩
    · rintro (h | ⟨l, hl, hf, ho⟩)
      · exact Or.inl h
      · exact Or.inr ⟨l.triggers, basic_scanLinks_mem_iff.mpr ⟨l, hl, hf, ho, rfl⟩⟩

theorem basic_tick_snd_iff {m : BasicFlag.Mind} :
    m.tick.snd = true ↔
      ∃ l ∈ m.links, BasicFlag.linkFires m.active_flags l = true := by
  rw [BasicFlag.Mind.tick]
  by_cases he : (BasicFlag.scanLinks m.links m.active_flags).isEmpty
  · rw [List.isEmpty_iff] at he
    have hnone := basic_scanLinks_eq_nil_iff.mp he
    rw [he]
    simp only [List.isEmpty_nil, if_pos]
    constructor
    · intro h
      exact Bool.noConfusion h
    · rintro ⟨l, hl, hf⟩
      rw [hnone l hl] at hf
      exact Bool.noConfusion hf
  · simp only [he, Bool.false_eq_true, if_false, true_iff]
    rw [List.isEmpty_iff] at he
    rcases hs : BasicFlag.scanLinks m.links m.active_flags with - | ⟨⟨o, cs⟩, rest⟩
    · exact absurd hs he
    · have hmem : (o, cs) ∈ BasicFlag.scanLinks m.links m.active_flags := by
        rw [hs]
        exact List.mem_cons_self _ _
      obtain ⟨l, hl, hf, -, -⟩ := basic_scanLinks_mem_iff.mp hmem
      exact ⟨l, hl, hf⟩

theorem basic_tick_fst_of_false {m : BasicFlag.Mind}
    (h : m.tick.snd = false) : m.tick.fst = m := by
  rw [BasicFlag.Mind.tick] at h ⊢
  by_cases he : (BasicFlag.scanLinks m.links m.active_flags).isEmpty
  · simp only [he, if_pos]
  · simp only [he, Bool.false_eq_true, if_false] at h
    exact Bool.noConfusion h

theorem basic_tick_links (m : BasicFlag.Mind) : m.tick.fst.links = m.links := by
  rw [BasicFlag.Mind.tick]
  split <;> rfl

theorem basic_tick_next_id (m : BasicFlag.Mind) :
    m.tick.fst.next_id = m.next_id := by
  rw [BasicFlag.Mind.tick]
  split <;> rfl

theorem basic_tick_flags_subset (m : BasicFlag.Mind) :
    m.active_flags ⊆ m.tick.fst.active_flags := by
  intro i hi
  exact basic_tick_mem_iff.mpr (Or.inl hi)

theorem simple_id_rules (m : SimpleFlag.Mind) (l : String) :
    (m.id l).fst.rules = m.rules := by
  unfold SimpleFlag.Mind.id
  split <;> rfl

/-! ### Claims -/

/-- C2: the set of outputs committed by one call to `tick` is a pure
function of the Active Memory state as it stood at the start of that tick:
in both variants, an identifier is present after the tick iff it was present
before or some stored rule fires against the tick-start state, where firing
(output absent, all triggers present, and — in the basic variant — no
forbid present) is evaluated entirely against the tick-start state, so a
fact first derived during a tick neither enables nor inhibits any other
rule within that same tick. -/
theorem C2_tick_pure_function_of_start_state
    (m : SimpleFlag.Mind) (b : BasicFlag.Mind)
    (i : SimpleFlag.FlagId) (j : BasicFlag.FlagId) :
    ((m.tick.fst.active_memory i).isSome ↔
      (m.active_memory i).isSome ∨
        ∃ r ∈ m.rules, SimpleFlag.ruleFires m.active_memory r = true ∧
          r.output = i) ∧
    (j ∈ b.tick.fst.active_flags ↔
      j ∈ b.active_flags ∨
        ∃ l ∈ b.links, BasicFlag.linkFires b.active_flags l = true ∧
          l.output = j) :=
  ⟨simple_tick_isSome_iff, basic_tick_mem_iff⟩

/-- C7: `tick` returns `false` iff no rule is newly satisfied against the
tick-start state, and when it returns `false` the state (Active Memory
included) is left completely unchanged — in both variants. -/
theorem C7_tick_false_iff_no_rule_and_unchanged
    (m : SimpleFlag.Mind) (b : BasicFlag.Mind) :
    (m.tick.snd = false ↔
      ¬ ∃ r ∈ m.rules, SimpleFlag.ruleFires m.active_memory r = true) ∧
    (m.tick.snd = false → m.tick.fst = m) ∧
    (b.tick.snd = false ↔
      ¬ ∃ l ∈ b.links, BasicFlag.linkFires b.active_flags l = true) ∧
    (b.tick.snd = false → b.tick.fst = b) := by
  refine ⟨?_, fun h => simple_tick_fst_of_false h, ?_,
    fun h => basic_tick_fst_of_false h⟩
  · rw [Bool.eq_false_iff]
    exact not_congr simple_tick_snd_iff
  · rw [Bool.eq_false_iff]
    exact not_congr basic_tick_snd_iff

/-- C7 witness: a concrete state whose tick reports no change (a rule whose
trigger is absent), evaluated through the theorem. -/
theorem C7_witness :
    (SimpleFlag.Mind.new.learn ["A"] "B").tick.snd = false ∧
    (SimpleFlag.Mind.new.learn ["A"] "B").tick.fst =
      SimpleFlag.Mind.new.learn ["A"] "B" ∧
    (BasicFlag.Mind.new.rule ["A"] [] "B").tick.snd = false ∧
    (BasicFlag.Mind.new.rule ["A"] [] "B").tick.fst =
      BasicFlag.Mind.new.rule ["A"] [] "B" :=
  ⟨by decide,
   (C7_tick_false_iff_no_rule_and_unchanged (SimpleFlag.Mind.new.learn ["A"] "B")
     (BasicFlag.Mind.new.rule ["A"] [] "B")).2.1 (by decide),
   by decide,
   (C7_tick_false_iff_no_rule_and_unchanged (SimpleFlag.Mind.new.learn ["A"] "B")
     (BasicFlag.Mind.new.rule ["A"] [] "B")).2.2.2 (by decide)⟩

/-- C1 counterexample: rules `A -> C` and `B -> C` with both `A` and `B`
injected.  Both rules are satisfied in the first tick; the commit for the
second rule overwrites the provenance stored by the commit for the first
rule within that same tick, so the stored provenance of `C` (id 2) cites
`[B]` (id 3), not the first derivation `[A]` (id 1) — with only the first
rule present it would have been `derived [1]`.  First derivation does not
win within a tick. -/
theorem C1_counterexample :
    ((((SimpleFlag.Mind.new.learn ["A"] "C").learn ["B"] "C").inject
        ["A", "B"]).tick.fst.active_memory 2 = some (.derived [3])) ∧
    ((((SimpleFlag.Mind.new.learn ["A"] "C").learn ["B"] "C").inject
        ["A", "B"]).rules = [⟨[1], 2⟩, ⟨[3], 2⟩]) ∧
    (((SimpleFlag.Mind.new.learn ["A"] "C").inject
        ["A", "B"]).tick.fst.active_memory 2 = some (.derived [1])) ∧
    SimpleFlag.Source.derived [3] ≠ SimpleFlag.Source.derived [1] := by
  decide

/-- C1 (amended): an identifier already present in Active Memory at the
start of a tick is never removed and its stored provenance is never changed
by that tick (so re-derivation across ticks is impossible; only several
rules with the same output firing within the single tick that first derives
it can overwrite provenance, the last one in store order winning). -/
theorem C1_amended_present_entries_preserved (m : SimpleFlag.Mind)
    (i : SimpleFlag.FlagId) (s : SimpleFlag.Source)
    (h : m.active_memory i = some s) :
    m.tick.fst.active_memory i = some s :=
  simple_tick_preserves h

/-- C1 witness: an injected fact keeps its `Input` provenance across the
tick that derives a new fact from it. -/
theorem C1_witness :
    ((SimpleFlag.Mind.new.learn ["A"] "B").inject ["A"]).active_memory 1 =
      some .input ∧
    ((SimpleFlag.Mind.new.learn ["A"] "B").inject ["A"]).tick.fst.active_memory 1 =
      some .input :=
  ⟨by decide,
   C1_amended_present_entries_preserved
     ((SimpleFlag.Mind.new.learn ["A"] "B").inject ["A"]) 1 .input (by decide)⟩

/-- C3 counterexample: `learn` accepts an empty trigger set without any
error (the rule is stored), and on the very first tick — with Active Memory
empty — the rule fires unconditionally (`all` over an empty list is true)
and commits its output with an empty cause list.  It is not rejected at
rule-definition time. -/
theorem C3_counterexample :
    (SimpleFlag.Mind.new.learn [] "X").rules = [⟨[], 1⟩] ∧
    (SimpleFlag.Mind.new.learn [] "X").tick.snd = true ∧
    (SimpleFlag.Mind.new.learn [] "X").tick.fst.active_memory 1 =
      some (.derived []) := by
  decide

/-- C3 (amended): a rule with an empty trigger set is silently accepted —
`learn` appends it to the store unconditionally — and behaves as an
always-firing rule: on any tick whose starting memory lacks its output, it
fires and its output is committed. -/
theorem C3_amended_empty_triggers_accepted_always_fire
    (m : SimpleFlag.Mind) (out : String) (r : SimpleFlag.Rule)
    (hr : r ∈ m.rules) (ht : r.triggers = [])
    (ho : m.active_memory r.output = none) :
    (m.learn [] out).rules.length = m.rules.length + 1 ∧
    m.tick.snd = true ∧
    (m.tick.fst.active_memory r.output).isSome := by
  have hfires : SimpleFlag.ruleFires m.active_memory r = true := by
    simp [SimpleFlag.ruleFires, ht, ho]
  refine ⟨?_, simple_tick_snd_iff.mpr ⟨r, hr, hfires⟩,
    simple_tick_isSome_iff.mpr (Or.inr ⟨r, hr, hfires, rfl⟩)⟩
  rw [SimpleFlag.Mind.learn]
  show ((m.id out).fst.rules ++ _).length = _
  rw [List.length_append, simple_id_rules]
  rfl

/-- C3 witness: the empty-trigger rule stored by `learn [] "X"` fires on the
first tick of a fresh mind. -/
theorem C3_witness :
    (⟨[], 1⟩ : SimpleFlag.Rule) ∈ (SimpleFlag.Mind.new.learn [] "X").rules ∧
    (SimpleFlag.Mind.new.learn [] "X").tick.snd = true ∧
    ((SimpleFlag.Mind.new.learn [] "X").tick.fst.active_memory 1).isSome :=
  ⟨by decide,
   (C3_amended_empty_triggers_accepted_always_fire
     (SimpleFlag.Mind.new.learn [] "X") "Y" ⟨[], 1⟩ (by decide) (by decide)
     (by decide)).2.1,
   (C3_amended_empty_triggers_accepted_always_fire
     (SimpleFlag.Mind.new.learn [] "X") "Y" ⟨[], 1⟩ (by decide) (by decide)
     (by decide)).2.2⟩

theorem basic_any_filter_ne {flags : Finset BasicFlag.FlagId}
    {o : BasicFlag.FlagId} (ho : o ∉ flags) (fs : List BasicFlag.FlagId) :
    (fs.filter (fun f => f != o)).any (fun f => decide (f ∈ flags)) =
      fs.any (fun f => decide (f ∈ flags)) := by
  induction fs with
  | nil => rfl
  | cons f rest ih =>
    by_cases h : f = o
    · subst h
      simp [List.filter_cons, ih, ho]
    · simp [List.filter_cons, bne_iff_ne, h, ih]

/-- C8: for every memory state, a rule with triggers `{A}` and forbids `{C}`
never fires in a tick whose starting memory contains `C`, even when `A` is
present; and it does fire — and, if stored, its output is committed — in a
tick whose starting memory contains `A`, lacks `C`, and lacks the output. -/
theorem C8_inhibition_correct (b : BasicFlag.Mind)
    (a c o : BasicFlag.FlagId) :
    (c ∈ b.active_flags →
      BasicFlag.linkFires b.active_flags ⟨[a], [c], o⟩ = false) ∧
    (a ∈ b.active_flags → c ∉ b.active_flags → o ∉ b.active_flags →
      BasicFlag.linkFires b.active_flags ⟨[a], [c], o⟩ = true ∧
      ((⟨[a], [c], o⟩ : BasicFlag.Link) ∈ b.links →
        o ∈ b.tick.fst.active_flags)) := by
  constructor
  · intro hc
    simp [BasicFlag.linkFires, hc]
  · intro ha hc ho
    have hf : BasicFlag.linkFires b.active_flags ⟨[a], [c], o⟩ = true := by
      simp [BasicFlag.linkFires, ha, hc, ho]
    exact ⟨hf, fun hl => basic_tick_mem_iff.mpr (Or.inr ⟨_, hl, hf, rfl⟩)⟩

/-- C8 witness: the smart-light scenario of `main`.  With
`SwitchOn, PowerOutage` injected the rule does not fire; with only
`SwitchOn` injected it fires and `LightOn` is derived.
Ids: SwitchOn = 1, PowerOutage = 2, LightOn = 3. -/
theorem C8_witness :
    2 ∈ ((BasicFlag.Mind.new.rule ["SwitchOn"] ["PowerOutage"] "LightOn").inject
      ["SwitchOn", "PowerOutage"]).active_flags ∧
    BasicFlag.linkFires
      ((BasicFlag.Mind.new.rule ["SwitchOn"] ["PowerOutage"] "LightOn").inject
        ["SwitchOn", "PowerOutage"]).active_flags ⟨[1], [2], 3⟩ = false ∧
    BasicFlag.linkFires
      ((BasicFlag.Mind.new.rule ["SwitchOn"] ["PowerOutage"] "LightOn").inject
        ["SwitchOn"]).active_flags ⟨[1], [2], 3⟩ = true ∧
    3 ∈ ((BasicFlag.Mind.new.rule ["SwitchOn"] ["PowerOutage"] "LightOn").inject
      ["SwitchOn"]).tick.fst.active_flags :=
  ⟨by decide,
   (C8_inhibition_correct
     ((BasicFlag.Mind.new.rule ["SwitchOn"] ["PowerOutage"] "LightOn").inject
       ["SwitchOn", "PowerOutage"]) 1 2 3).1 (by decide),
   ((C8_inhibition_correct
     ((BasicFlag.Mind.new.rule ["SwitchOn"] ["PowerOutage"] "LightOn").inject
       ["SwitchOn"]) 1 2 3).2 (by decide) (by decide) (by decide)).1,
   ((C8_inhibition_correct
     ((BasicFlag.Mind.new.rule ["SwitchOn"] ["PowerOutage"] "LightOn").inject
       ["SwitchOn"]) 1 2 3).2 (by decide) (by decide) (by decide)).2
     (by decide)⟩

/-- C9 counterexample: a rule whose output is among its own forbids is NOT
inert.  With the single rule `(A) - (D) -> D` (ids `A = 1`, `D = 2`) and
`A` injected, the tick fires the rule and adds `D`, changing Active Memory:
the self-forbid never blocks because the output-redundancy check already
guarantees the output is absent when the forbids are consulted. -/
theorem C9_counterexample :
    ((BasicFlag.Mind.new.rule ["A"] ["D"] "D").inject ["A"]).links =
      [⟨[1], [2], 2⟩] ∧
    ((BasicFlag.Mind.new.rule ["A"] ["D"] "D").inject ["A"]).tick.snd = true ∧
    2 ∈ ((BasicFlag.Mind.new.rule ["A"] ["D"] "D").inject
      ["A"]).tick.fst.active_flags ∧
    2 ∉ ((BasicFlag.Mind.new.rule ["A"] ["D"] "D").inject ["A"]).active_flags := by
  decide

/-- C9 (amended): a rule whose output is among its own triggers is inert —
it never passes the scan for any memory state; a rule whose output is among
its own forbids is not inert, but the self-forbid entry is vacuous: the rule
evaluates exactly as if that entry were removed from its forbid list. -/
theorem C9_amended_self_reference (flags : Finset BasicFlag.FlagId)
    (l : BasicFlag.Link) :
    (l.output ∈ l.triggers → BasicFlag.linkFires flags l = false) ∧
    BasicFlag.linkFires flags l =
      BasicFlag.linkFires flags
        ⟨l.triggers, l.forbids.filter (fun f => f != l.output), l.output⟩ := by
  constructor
  · intro ht
    by_cases ho : l.output ∈ flags
    · simp [BasicFlag.linkFires, ho]
    · have hall : l.triggers.all (fun t => decide (t ∈ flags)) = false := by
        rw [List.all_eq_false]
        exact ⟨l.output, ht, by simp [ho]⟩
      simp [BasicFlag.linkFires, hall]
  · by_cases ho : l.output ∈ flags
    · simp [BasicFlag.linkFires, ho]
    · rw [BasicFlag.linkFires, BasicFlag.linkFires]
      simp only []
      rw [basic_any_filter_ne ho]

/-- C9 witness: a concrete self-triggering rule (`output = 2` among its own
triggers) never fires. -/
theorem C9_witness :
    (2 : BasicFlag.FlagId) ∈ [2, 1] ∧
    BasicFlag.linkFires {1, 2} ⟨[2, 1], [], 2⟩ = false :=
  ⟨by decide, (C9_amended_self_reference {1, 2} ⟨[2, 1], [], 2⟩).1 (by decide)⟩

/-- C10: `trace` is read-only.  For every engine state and every label —
never interned, interned but absent from Active Memory, or present — the
returned state is the input state, so the symbol table (`label_to_id`,
`id_to_label`, `next_id`), the rule store and Active Memory are unchanged;
in particular tracing a never-interned label allocates no identifier
(`trace` looks the label up instead of interning it). -/
theorem C10_trace_readonly (m : SimpleFlag.Mind) (target : String)
    (fuel : Nat) :
    (m.trace target fuel).fst = m ∧
    (m.trace target fuel).fst.label_to_id = m.label_to_id ∧
    (m.trace target fuel).fst.next_id = m.next_id ∧
    (m.trace target fuel).fst.rules = m.rules ∧
    (m.trace target fuel).fst.active_memory = m.active_memory := by
  have h : (m.trace target fuel).fst = m := by
    unfold SimpleFlag.Mind.trace
    split
    · split <;> rfl
    · rfl
  exact ⟨h, by rw [h], by rw [h], by rw [h], by rw [h]⟩

theorem simple_tick_congr {m1 m2 : SimpleFlag.Mind}
    (hrules : m1.rules.Perm m2.rules)
    (hmem : ∀ i, (m1.active_memory i).isSome ↔ (m2.active_memory i).isSome) :
    m1.tick.snd = m2.tick.snd ∧
    ∀ i, (m1.tick.fst.active_memory i).isSome ↔
      (m2.tick.fst.active_memory i).isSome := by
  have hb : ∀ i, (m1.active_memory i).isSome = (m2.active_memory i).isSome := by
    intro i
    have := hmem i
    cases h1 : (m1.active_memory i).isSome <;>
      cases h2 : (m2.active_memory i).isSome <;> simp_all
  have hf : ∀ r, SimpleFlag.ruleFires m1.active_memory r =
      SimpleFlag.ruleFires m2.active_memory r := by
    intro r
    simp only [SimpleFlag.ruleFires, hb]
  constructor
  · cases hs1 : m1.tick.snd <;> cases hs2 : m2.tick.snd
    · rfl
    · obtain ⟨r, hr, hfr⟩ := simple_tick_snd_iff.mp hs2
      have : m1.tick.snd = true :=
        simple_tick_snd_iff.mpr ⟨r, hrules.mem_iff.mpr hr, (hf r).trans hfr⟩
      rw [hs1] at this
      exact Bool.noConfusion this
    · obtain ⟨r, hr, hfr⟩ := simple_tick_snd_iff.mp hs1
      have : m2.tick.snd = true :=
        simple_tick_snd_iff.mpr ⟨r, hrules.mem_iff.mp hr, (hf r).symm.trans hfr⟩
      rw [hs2] at this
      exact Bool.noConfusion this
    · rfl
  · intro i
    rw [simple_tick_isSome_iff, simple_tick_isSome_iff]
    constructor
    · rintro (h | ⟨r, hr, hfr, ho⟩)
      · exact Or.inl ((hmem i).mp h)
      · exact Or.inr ⟨r, hrules.mem_iff.mp hr, (hf r).symm.trans hfr, ho⟩
    · rintro (h | ⟨r, hr, hfr, ho⟩)
      · exact Or.inl ((hmem i).mpr h)
      · exact Or.inr ⟨r, hrules.mem_iff.mpr hr, (hf r).trans hfr, ho⟩

theorem simple_runTicks_rules (n : Nat) (m : SimpleFlag.Mind) :
    (SimpleFlag.runTicks n m).rules = m.rules := by
  induction n generalizing m with
  | zero => rfl
  | succ n ih =>
    rcases ht : m.tick with ⟨m', b⟩
    have hr : m'.rules = m.rules := by
      have := simple_tick_rules m
      rw [ht] at this
      exact this
    cases b
    · simp only [SimpleFlag.runTicks, ht]
      exact hr
    · simp only [SimpleFlag.runTicks, ht]
      rw [ih m', hr]

theorem simple_runTicks_congr (n : Nat) :
    ∀ (m1 m2 : SimpleFlag.Mind), m1.rules.Perm m2.rules →
    (∀ i, (m1.active_memory i).isSome ↔ (m2.active_memory i).isSome) →
    ∀ i, ((SimpleFlag.runTicks n m1).active_memory i).isSome ↔
      ((SimpleFlag.runTicks n m2).active_memory i).isSome := by
  induction n with
  | zero => exact fun m1 m2 _ hmem i => hmem i
  | succ n ih =>
    intro m1 m2 hrules hmem i
    obtain ⟨hsnd, hmem'⟩ := simple_tick_congr hrules hmem
    have hrules' : m1.tick.fst.rules.Perm m2.tick.fst.rules := by
      rw [simple_tick_rules, simple_tick_rules]
      exact hrules
    rcases ht1 : m1.tick with ⟨m1', b1⟩
    rcases ht2 : m2.tick with ⟨m2', b2⟩
    rw [ht1, ht2] at hsnd hrules'
    have hmem'' : ∀ j, (m1'.active_memory j).isSome ↔ (m2'.active_memory j).isSome := by
      intro j
      have := hmem' j
      rw [ht1, ht2] at this
      exact this
    dsimp only at hsnd hrules' hmem''
    subst hsnd
    cases b1
    · simp only [SimpleFlag.runTicks, ht1, ht2]
      exact hmem'' i
    · simp only [SimpleFlag.runTicks, ht1, ht2]
      exact ih m1' m2' hrules' hmem'' i

/-- C4 counterexample: permuting the two rules `A -> C`, `B -> C` (same
symbol table, same injected facts) changes the resulting Active Memory
state: the stored provenance of `C` (id 2) after running to quiescence
cites `[3]` in one order and `[1]` in the other, because both rules fire in
the first tick and the commit of the later rule in store order overwrites
the earlier one's provenance. -/
theorem C4_counterexample :
    permBase.rules.Perm permSwapped.rules ∧
    permBase.active_memory = permSwapped.active_memory ∧
    (SimpleFlag.runTicks 3 permBase).active_memory 2 =
      some (.derived [3]) ∧
    (SimpleFlag.runTicks 3 permSwapped).active_memory 2 =
      some (.derived [1]) ∧
    some (SimpleFlag.Source.derived [3]) ≠ some (SimpleFlag.Source.derived [1]) :=
  ⟨(List.reverse_perm _).symm, rfl, by decide, by decide, by decide⟩

/-- C4 (amended): permuting the Rule Store affects neither which facts are
derived nor when the loop quiesces: for two states with permuted rules and
the same fact set, after any number of driver-loop steps the derived fact
sets coincide and the next tick's changed/unchanged verdicts coincide.
Only the stored `Derived` provenance (and the display order within a tick)
can differ, when several rules share an output. -/
theorem C4_amended_fact_set_perm_invariant
    (m1 m2 : SimpleFlag.Mind) (n : Nat)
    (hrules : m1.rules.Perm m2.rules)
    (hmem : ∀ i, (m1.active_memory i).isSome ↔ (m2.active_memory i).isSome) :
    (∀ i, ((SimpleFlag.runTicks n m1).active_memory i).isSome ↔
      ((SimpleFlag.runTicks n m2).active_memory i).isSome) ∧
    (SimpleFlag.runTicks n m1).tick.snd = (SimpleFlag.runTicks n m2).tick.snd := by
  have hmemn := simple_runTicks_congr n m1 m2 hrules hmem
  have hrulesn : (SimpleFlag.runTicks n m1).rules.Perm
      (SimpleFlag.runTicks n m2).rules := by
    rw [simple_runTicks_rules, simple_runTicks_rules]
    exact hrules
  exact ⟨hmemn, (simple_tick_congr hrulesn hmemn).1⟩

/-- C4 witness: the two permuted concrete states derive the same fact set
and quiesce together after the run. -/
theorem C4_witness :
    permBase.rules.Perm permSwapped.rules ∧
    (((SimpleFlag.runTicks 3 permBase).active_memory 2).isSome ↔
      ((SimpleFlag.runTicks 3 permSwapped).active_memory 2).isSome) ∧
    (SimpleFlag.runTicks 3 permBase).tick.snd =
      (SimpleFlag.runTicks 3 permSwapped).tick.snd :=
  ⟨(List.reverse_perm _).symm,
   (C4_amended_fact_set_perm_invariant permBase permSwapped 3
     (List.reverse_perm _).symm (fun _ => Iff.rfl)).1 2,
   (C4_amended_fact_set_perm_invariant permBase permSwapped 3
     (List.reverse_perm _).symm (fun _ => Iff.rfl)).2⟩

/-! ### Helper lemmas: basic-flag interning and the id-range invariant -/

theorem basic_id_fst_links (m : BasicFlag.Mind) (l : String) :
    (m.id l).fst.links = m.links := by
  unfold BasicFlag.Mind.id
  split <;> rfl

theorem basic_id_fst_flags (m : BasicFlag.Mind) (l : String) :
    (m.id l).fst.active_flags = m.active_flags := by
  unfold BasicFlag.Mind.id
  split <;> rfl

theorem basic_id_next_le (m : BasicFlag.Mind) (l : String) :
    m.next_id ≤ (m.id l).fst.next_id := by
  unfold BasicFlag.Mind.id
  split
  · exact Nat.le_refl _
  · exact Nat.le_succ _

theorem basic_id_snd_range (m : BasicFlag.Mind) (l : String)
    (h : BasicFlag.IdsInRange m) :
    1 ≤ (m.id l).snd ∧ (m.id l).snd < (m.id l).fst.next_id := by
  obtain ⟨h0, -, -, h3⟩ := h
  unfold BasicFlag.Mind.id
  split
  · next i heq =>
    have := h3 l i heq
    exact ⟨this.1, this.2⟩
  · exact ⟨h0, Nat.lt_succ_self _⟩

theorem basic_id_preserves (m : BasicFlag.Mind) (l : String)
    (h : BasicFlag.IdsInRange m) : BasicFlag.IdsInRange (m.id l).fst := by
  obtain ⟨h0, h1, h2, h3⟩ := h
  unfold BasicFlag.Mind.id
  split
  · exact ⟨h0, h1, h2, h3⟩
  · refine ⟨Nat.le_succ_of_le h0, ?_, ?_, ?_⟩
    · intro f hf
      have hx := h1 f hf
      exact ⟨hx.1, Nat.lt_succ_of_lt hx.2⟩
    · intro lk hlk
      have hx := h2 lk hlk
      exact ⟨hx.1, Nat.lt_succ_of_lt hx.2⟩
    · intro lbl i hli
      by_cases he : lbl = l
      · rw [show ((if lbl = l then some m.next_id else m.label_to_id lbl) =
          some i) = _ from rfl, if_pos he] at hli
        injection hli with hi
        subst hi
        exact ⟨h0, Nat.lt_succ_self _⟩
      · rw [show ((if lbl = l then some m.next_id else m.label_to_id lbl) =
          some i) = _ from rfl, if_neg he] at hli
        have hx := h3 lbl i hli
        exact ⟨hx.1, Nat.lt_succ_of_lt hx.2⟩

theorem basic_internList_preserves (names : List String) :
    ∀ (m : BasicFlag.Mind), BasicFlag.IdsInRange m →
      BasicFlag.IdsInRange (BasicFlag.internList m names).fst ∧
      m.next_id ≤ (BasicFlag.internList m names).fst.next_id ∧
      (BasicFlag.internList m names).fst.links = m.links ∧
      (BasicFlag.internList m names).fst.active_flags = m.active_flags := by
  induction names with
  | nil => exact fun m h => ⟨h, Nat.le_refl _, rfl, rfl⟩
  | cons n rest ih =>
    intro m h
    obtain ⟨h', hle, hlinks, hflags⟩ := ih (m.id n).fst (basic_id_preserves m n h)
    exact ⟨h', Nat.le_trans (basic_id_next_le m n) hle,
      hlinks.trans (basic_id_fst_links m n),
      hflags.trans (basic_id_fst_flags m n)⟩

theorem basic_rule_preserves (m : BasicFlag.Mind) (ts fs : List String)
    (out : String) (h : BasicFlag.IdsInRange m) :
    BasicFlag.IdsInRange (m.rule ts fs out) := by
  obtain ⟨h1, -, -, -⟩ := basic_internList_preserves ts m h
  obtain ⟨h2, -, -, -⟩ := basic_internList_preserves fs _ h1
  have h3 := basic_id_preserves _ out h2
  have ho := basic_id_snd_range _ out h2
  obtain ⟨g0, g1, g2, g3⟩ := h3
  refine ⟨g0, g1, ?_, g3⟩
  intro lk hlk
  rcases List.mem_append.mp hlk with hmem | hmem
  · exact g2 lk hmem
  · rw [List.mem_singleton.mp hmem]
    exact ho

theorem basic_inject_preserves (names : List String) :
    ∀ (m : BasicFlag.Mind), BasicFlag.IdsInRange m →
      BasicFlag.IdsInRange (m.inject names) := by
  induction names with
  | nil => exact fun m h => h
  | cons n rest ih =>
    intro m h
    apply ih
    obtain ⟨g0, g1, g2, g3⟩ := basic_id_preserves m n h
    have hi := basic_id_snd_range m n h
    refine ⟨g0, ?_, g2, g3⟩
    intro f hf
    rcases Finset.mem_insert.mp hf with hfe | hf'
    · rw [hfe]
      exact hi
    · exact g1 f hf'

theorem basic_tick_label_to_id (m : BasicFlag.Mind) :
    m.tick.fst.label_to_id = m.label_to_id := by
  rw [BasicFlag.Mind.tick]
  split <;> rfl

theorem basic_tick_preserves_inv (m : BasicFlag.Mind)
    (h : BasicFlag.IdsInRange m) : BasicFlag.IdsInRange m.tick.fst := by
  obtain ⟨h0, h1, h2, h3⟩ := h
  refine ⟨?_, ?_, ?_, ?_⟩
  · rw [basic_tick_next_id]
    exact h0
  · intro f hf
    rw [basic_tick_next_id]
    rcases basic_tick_mem_iff.mp hf with hm | ⟨l, hl, -, ho⟩
    · exact h1 f hm
    · rw [← ho]
      exact h2 l hl
  · intro lk hlk
    rw [basic_tick_next_id]
    rw [basic_tick_links] at hlk
    exact h2 lk hlk
  · intro lbl i hli
    rw [basic_tick_next_id]
    rw [basic_tick_label_to_id] at hli
    exact h3 lbl i hli

theorem basic_reachable_inv {m : BasicFlag.Mind}
    (h : BasicFlag.Reachable m) : BasicFlag.IdsInRange m := by
  induction h with
  | new =>
    refine ⟨Nat.le_refl 1, ?_, ?_, ?_⟩
    · intro f hf
      exact absurd hf (Finset.not_mem_empty f)
    · intro lk hlk
      exact absurd hlk (List.not_mem_nil lk)
    · intro lbl i hli
      exact Option.noConfusion hli
  | rule m ts fs out _ ih => exact basic_rule_preserves m ts fs out ih
  | reset m _ ih =>
    obtain ⟨h0, -, h2, h3⟩ := ih
    refine ⟨h0, ?_, h2, h3⟩
    intro f hf
    exact absurd hf (Finset.not_mem_empty f)
  | inject m names _ ih => exact basic_inject_preserves names m ih
  | tick m _ ih => exact basic_tick_preserves_inv m ih

theorem basic_ponder_reaches_fixpoint (k : Nat) :
    ∀ (m : BasicFlag.Mind), BasicFlag.IdsInRange m →
      (Finset.Ico 1 m.next_id \ m.active_flags).card ≤ k →
      (BasicFlag.ponder k m).tick.snd = false := by
  induction k with
  | zero =>
    intro m h hcard
    show m.tick.snd = false
    rw [Bool.eq_false_iff]
    intro htrue
    obtain ⟨l, hl, hf⟩ := basic_tick_snd_iff.mp htrue
    have hsub : Finset.Ico 1 m.next_id ⊆ m.active_flags :=
      Finset.sdiff_eq_empty_iff_subset.mp
        (Finset.card_eq_zero.mp (Nat.le_zero.mp hcard))
    have ho := h.2.2.1 l hl
    have hmem : l.output ∈ m.active_flags :=
      hsub (Finset.mem_Ico.mpr ⟨ho.1, ho.2⟩)
    rw [BasicFlag.linkFires, Bool.and_eq_true, Bool.and_eq_true,
      Bool.not_eq_true'] at hf
    have := hf.1.1
    simp [hmem] at this
  | succ k ih =>
    intro m h hcard
    rcases ht : m.tick with ⟨m', b⟩
    cases b
    · have hsnd : m.tick.snd = false := by
        rw [ht]
      have hm' : m' = m := by
        have := basic_tick_fst_of_false hsnd
        rw [ht] at this
        exact this
      simp only [BasicFlag.ponder, ht]
      rw [hm']
      exact hsnd
    · have hsnd : m.tick.snd = true := by
        rw [ht]
      simp only [BasicFlag.ponder, ht]
      have hinv' : BasicFlag.IdsInRange m' := by
        have := basic_tick_preserves_inv m h
        rw [ht] at this
        exact this
      apply ih m' hinv'
      have hnext : m'.next_id = m.next_id := by
        have := basic_tick_next_id m
        rw [ht] at this
        exact this
      obtain ⟨l, hl, hf⟩ := basic_tick_snd_iff.mp hsnd
      have hsub : m.active_flags ⊆ m'.active_flags := by
        have := basic_tick_flags_subset m
        rw [ht] at this
        exact this
      have hout_not : l.output ∉ m.active_flags := by
        rw [BasicFlag.linkFires, Bool.and_eq_true, Bool.and_eq_true,
          Bool.not_eq_true'] at hf
        simpa using hf.1.1
      have hout_in : l.output ∈ m'.active_flags := by
        have : l.output ∈ m.tick.fst.active_flags :=
          basic_tick_mem_iff.mpr (Or.inr ⟨l, hl, hf, rfl⟩)
        rw [ht] at this
        exact this
      have horange := h.2.2.1 l hl
      have hss : (Finset.Ico 1 m.next_id \ m'.active_flags) ⊂
          (Finset.Ico 1 m.next_id \ m.active_flags) := by
        rw [Finset.ssubset_def]
        constructor
        · exact Finset.sdiff_subset_sdiff (Finset.Subset.refl _) hsub
        · intro hcon
          have hin : l.output ∈ Finset.Ico 1 m.next_id \ m.active_flags :=
            Finset.mem_sdiff.mpr ⟨Finset.mem_Ico.mpr ⟨horange.1, horange.2⟩,
              hout_not⟩
          have := Finset.mem_sdiff.mp (hcon hin)
          exact this.2 hout_in
      have hlt := Finset.card_lt_card hss
      rw [hnext]
      omega

/-- C5: `ponder` terminates.  Active Memory is monotone (facts are never
retracted by a tick), every tick that reports a change strictly enlarges the
active flag set, the active flags are bounded by the identifiers interned so
far, and therefore running the loop for (number of distinct interned
identifiers) = `next_id - 1` steps reaches quiescence: the next `tick`
returns false. -/
theorem C5_ponder_terminates (m : BasicFlag.Mind)
    (h : BasicFlag.Reachable m) :
    m.active_flags ⊆ m.tick.fst.active_flags ∧
    (m.tick.snd = true → m.active_flags ⊂ m.tick.fst.active_flags) ∧
    (BasicFlag.ponder (m.next_id - 1) m).tick.snd = false := by
  have hinv := basic_reachable_inv h
  refine ⟨basic_tick_flags_subset m, ?_, ?_⟩
  · intro htrue
    obtain ⟨l, hl, hf⟩ := basic_tick_snd_iff.mp htrue
    have hout_not : l.output ∉ m.active_flags := by
      rw [BasicFlag.linkFires, Bool.and_eq_true, Bool.and_eq_true,
        Bool.not_eq_true'] at hf
      simpa using hf.1.1
    have hout_in : l.output ∈ m.tick.fst.active_flags :=
      basic_tick_mem_iff.mpr (Or.inr ⟨l, hl, hf, rfl⟩)
    rw [Finset.ssubset_def]
    refine ⟨basic_tick_flags_subset m, fun hcon => hout_not (hcon hout_in)⟩
  · apply basic_ponder_reaches_fixpoint (m.next_id - 1) m hinv
    calc (Finset.Ico 1 m.next_id \ m.active_flags).card
        ≤ (Finset.Ico 1 m.next_id).card :=
          Finset.card_le_card (Finset.sdiff_subset)
      _ = m.next_id - 1 := Nat.card_Ico 1 m.next_id

/-- C5 witness: the security-system scenario of `main` (rule
`KeyCard + Fingerprint -> AccessGranted` with both facts injected,
`next_id = 4`) reaches quiescence within `next_id - 1 = 3` ticks, and its
first tick strictly enlarges the flag set. -/
theorem C5_witness :
    BasicFlag.Reachable
      ((BasicFlag.Mind.new.rule ["KeyCard", "Fingerprint"] []
        "AccessGranted").inject ["KeyCard", "Fingerprint"]) ∧
    ((BasicFlag.Mind.new.rule ["KeyCard", "Fingerprint"] []
        "AccessGranted").inject ["KeyCard", "Fingerprint"]).tick.snd = true ∧
    ((BasicFlag.Mind.new.rule ["KeyCard", "Fingerprint"] []
        "AccessGranted").inject ["KeyCard", "Fingerprint"]).active_flags ⊂
      ((BasicFlag.Mind.new.rule ["KeyCard", "Fingerprint"] []
        "AccessGranted").inject ["KeyCard", "Fingerprint"]).tick.fst.active_flags ∧
    (BasicFlag.ponder
      (((BasicFlag.Mind.new.rule ["KeyCard", "Fingerprint"] []
        "AccessGranted").inject ["KeyCard", "Fingerprint"]).next_id - 1)
      ((BasicFlag.Mind.new.rule ["KeyCard", "Fingerprint"] []
        "AccessGranted").inject ["KeyCard", "Fingerprint"])).tick.snd = false :=
  have hreach : BasicFlag.Reachable
      ((BasicFlag.Mind.new.rule ["KeyCard", "Fingerprint"] []
        "AccessGranted").inject ["KeyCard", "Fingerprint"]) :=
    BasicFlag.Reachable.inject _ _
      (BasicFlag.Reachable.rule _ _ _ _ BasicFlag.Reachable.new)
  ⟨hreach,
   by decide,
   (C5_ponder_terminates _ hreach).2.1 (by decide),
   (C5_ponder_terminates _ hreach).2.2⟩

/-! ### Helper lemmas: the cause-rank invariant of the simple-flag engine -/

theorem simple_id_memory (m : SimpleFlag.Mind) (l : String) :
    (m.id l).fst.active_memory = m.active_memory := by
  unfold SimpleFlag.Mind.id
  split <;> rfl

theorem simple_internList_memory (names : List String) :
    ∀ (m : SimpleFlag.Mind),
      (SimpleFlag.internList m names).fst.active_memory = m.active_memory := by
  induction names with
  | nil => exact fun m => rfl
  | cons n rest ih =>
    intro m
    exact (ih (m.id n).fst).trans (simple_id_memory m n)

theorem simple_internList_rules (names : List String) :
    ∀ (m : SimpleFlag.Mind),
      (SimpleFlag.internList m names).fst.rules = m.rules := by
  induction names with
  | nil => exact fun m => rfl
  | cons n rest ih =>
    intro m
    exact (ih (m.id n).fst).trans (simple_id_rules m n)

theorem simple_learn_memory (m : SimpleFlag.Mind) (ins : List String)
    (out : String) : (m.learn ins out).active_memory = m.active_memory := by
  show ((SimpleFlag.internList m ins).fst.id out).fst.active_memory = _
  rw [simple_id_memory, simple_internList_memory]

theorem simple_learn_rules_mono (m : SimpleFlag.Mind) (ins : List String)
    (out : String) {r : SimpleFlag.Rule} (h : r ∈ m.rules) :
    r ∈ (m.learn ins out).rules := by
  show r ∈ ((SimpleFlag.internList m ins).fst.id out).fst.rules ++ _
  rw [simple_id_rules, simple_internList_rules]
  exact List.mem_append_left _ h

theorem simple_goodRank_congr {m1 m2 : SimpleFlag.Mind}
    {rank : SimpleFlag.FlagId → Nat} {bound : Nat}
    (hmem : m2.active_memory = m1.active_memory)
    (hrules : ∀ r ∈ m1.rules, r ∈ m2.rules)
    (h : SimpleFlag.GoodRank m1 rank bound) :
    SimpleFlag.GoodRank m2 rank bound := by
  obtain ⟨hb, hd⟩ := h
  constructor
  · intro i hi
    rw [hmem] at hi
    exact hb i hi
  · intro i cs hics
    rw [hmem] at hics
    obtain ⟨⟨r, hr, ht⟩, hcs⟩ := hd i cs hics
    refine ⟨⟨r, hrules r hr, ht⟩, ?_⟩
    intro c hc
    refine ⟨?_, (hcs c hc).2⟩
    rw [hmem]
    exact (hcs c hc).1

theorem simple_commitFacts_cases
    (mem : SimpleFlag.FlagId → Option SimpleFlag.Source)
    (facts : List (SimpleFlag.FlagId × List SimpleFlag.FlagId))
    (j : SimpleFlag.FlagId) :
    SimpleFlag.commitFacts mem facts j = mem j ∨
      ∃ cs, (j, cs) ∈ facts ∧
        SimpleFlag.commitFacts mem facts j = some (.derived cs) := by
  induction facts generalizing mem with
  | nil => exact Or.inl rfl
  | cons p rest ih =>
    obtain ⟨o, cs⟩ := p
    rw [SimpleFlag.commitFacts]
    rcases ih (SimpleFlag.insertMem mem o (.derived cs)) with h | ⟨cs', hmem', heq⟩
    · by_cases hjo : j = o
      · subst hjo
        refine Or.inr ⟨cs, List.mem_cons_self _ _, ?_⟩
        rw [h]
        simp [SimpleFlag.insertMem]
      · refine Or.inl ?_
        rw [h]
        simp [SimpleFlag.insertMem, hjo]
    · exact Or.inr ⟨cs', List.mem_cons_of_mem _ hmem', heq⟩

theorem simple_insertInput_goodRank {m : SimpleFlag.Mind}
    {rank : SimpleFlag.FlagId → Nat} {bound : Nat}
    (h : SimpleFlag.GoodRank m rank bound) (i : SimpleFlag.FlagId) :
    SimpleFlag.GoodRank
      { m with active_memory := SimpleFlag.insertMem m.active_memory i .input }
      (fun j => if (m.active_memory j).isSome then rank j else 0)
      (bound + 1) := by
  obtain ⟨hb, hd⟩ := h
  constructor
  · intro j hj
    dsimp only
    by_cases hjs : (m.active_memory j).isSome
    · rw [if_pos hjs]
      exact Nat.lt_succ_of_lt (hb j hjs)
    · rw [if_neg hjs]
      exact Nat.succ_pos _
  · intro j cs hjcs
    have hji : j ≠ i := by
      intro hji
      subst hji
      rw [show ({ m with
          active_memory := SimpleFlag.insertMem m.active_memory j .input
          } : SimpleFlag.Mind).active_memory j =
            SimpleFlag.insertMem m.active_memory j .input j from rfl] at hjcs
      simp [SimpleFlag.insertMem] at hjcs
    have hjold : m.active_memory j = some (.derived cs) := by
      rw [show ({ m with
          active_memory := SimpleFlag.insertMem m.active_memory i .input
          } : SimpleFlag.Mind).active_memory j =
            SimpleFlag.insertMem m.active_memory i .input j from rfl] at hjcs
      rw [SimpleFlag.insertMem, if_neg hji] at hjcs
      exact hjcs
    obtain ⟨⟨r, hr, ht⟩, hcs⟩ := hd j cs hjold
    have hjs : (m.active_memory j).isSome := by
      rw [hjold]
      rfl
    refine ⟨⟨r, hr, ht⟩, ?_⟩
    intro c hc
    obtain ⟨hc1, hc2⟩ := hcs c hc
    refine ⟨?_, ?_⟩
    · show (SimpleFlag.insertMem m.active_memory i .input c).isSome = true
      rw [SimpleFlag.insertMem]
      by_cases hci : c = i
      · rw [if_pos hci]
        rfl
      · rw [if_neg hci]
        exact hc1
    · dsimp only
      rw [if_pos hc1, if_pos hjs]
      exact hc2

theorem simple_tick_goodRank {m : SimpleFlag.Mind}
    {rank : SimpleFlag.FlagId → Nat} {bound : Nat}
    (hg : SimpleFlag.GoodRank m rank bound) :
    SimpleFlag.GoodRank m.tick.fst
      (fun j => if (m.active_memory j).isSome then rank j else bound)
      (bound + 1) := by
  obtain ⟨hb, hd⟩ := hg
  constructor
  · intro j hj
    dsimp only
    by_cases hjs : (m.active_memory j).isSome
    · rw [if_pos hjs]
      exact Nat.lt_succ_of_lt (hb j hjs)
    · rw [if_neg hjs]
      exact Nat.lt_succ_self _
  · intro j cs hjcs
    by_cases hjs : (m.active_memory j).isSome
    · obtain ⟨s, hs⟩ := Option.isSome_iff_exists.mp hjs
      have hpres := simple_tick_preserves hs
      have hse : s = .derived cs := by
        have := hpres.symm.trans hjcs
        injection this
      rw [hse] at hs
      obtain ⟨⟨r, hrr, hrt⟩, hcs⟩ := hd j cs hs
      refine ⟨⟨r, ?_, hrt⟩, ?_⟩
      · rw [simple_tick_rules]
        exact hrr
      · intro c hc
        obtain ⟨hc1, hc2⟩ := hcs c hc
        obtain ⟨sc, hsc⟩ := Option.isSome_iff_exists.mp hc1
        refine ⟨?_, ?_⟩
        · rw [simple_tick_preserves hsc]
          rfl
        · dsimp only
          rw [if_pos hc1, if_pos hjs]
          exact hc2
    · have hnone : m.active_memory j = none :=
        Option.not_isSome_iff_eq_none.mp hjs
      have hscan : (j, cs) ∈ SimpleFlag.scanRules m.rules m.active_memory := by
        rw [SimpleFlag.Mind.tick] at hjcs
        by_cases he : (SimpleFlag.scanRules m.rules m.active_memory).isEmpty
        · simp only [he, if_pos] at hjcs
          rw [hnone] at hjcs
          exact Option.noConfusion hjcs
        · simp only [he, Bool.false_eq_true, if_false] at hjcs
          rcases simple_commitFacts_cases m.active_memory
            (SimpleFlag.scanRules m.rules m.active_memory) j with
            hcase | ⟨cs', hmem', heq⟩
          · rw [hcase, hnone] at hjcs
            exact Option.noConfusion hjcs
          · rw [heq] at hjcs
            injection hjcs with h2
            injection h2 with h3
            rw [← h3]
            exact hmem'
      obtain ⟨r, hrr, hfir, hout, htrig⟩ := simple_scanRules_mem_iff.mp hscan
      have hall : r.triggers.all (fun t => (m.active_memory t).isSome) = true := by
        rw [SimpleFlag.ruleFires, Bool.and_eq_true] at hfir
        exact hfir.2
      refine ⟨⟨r, ?_, htrig⟩, ?_⟩
      · rw [simple_tick_rules]
        exact hrr
      · intro c hc
        have hc1 : (m.active_memory c).isSome := by
          rw [List.all_eq_true] at hall
          have := hall c (htrig.symm ▸ hc)
          simpa using this
        obtain ⟨sc, hsc⟩ := Option.isSome_iff_exists.mp hc1
        refine ⟨?_, ?_⟩
        · rw [simple_tick_preserves hsc]
          rfl
        · dsimp only
          rw [if_pos hc1, if_neg hjs]
          exact hb c hc1

theorem simple_inject_goodRank (names : List String) :
    ∀ (m : SimpleFlag.Mind),
      (∃ rank bound, SimpleFlag.GoodRank m rank bound) →
      ∃ rank bound, SimpleFlag.GoodRank (m.inject names) rank bound := by
  induction names with
  | nil => exact fun m h => h
  | cons n rest ih =>
    rintro m ⟨rank, bound, hg⟩
    apply ih
    have hg1 : SimpleFlag.GoodRank (m.id n).fst rank bound :=
      simple_goodRank_congr (simple_id_memory m n)
        (by rw [simple_id_rules]; exact fun r hr => hr) hg
    exact ⟨_, _, simple_insertInput_goodRank hg1 (m.id n).snd⟩

theorem simple_reachable_goodRank {m : SimpleFlag.Mind}
    (h : SimpleFlag.Reachable m) :
    ∃ rank bound, SimpleFlag.GoodRank m rank bound := by
  induction h with
  | new =>
    refine ⟨fun _ => 0, 1, ?_, ?_⟩
    · intro i hi
      exact absurd hi (by simp [SimpleFlag.Mind.new])
    · intro i cs hics
      exact absurd hics (by simp [SimpleFlag.Mind.new])
  | learn m ins out _ ih =>
    obtain ⟨rank, bound, hg⟩ := ih
    exact ⟨rank, bound, simple_goodRank_congr (simple_learn_memory m ins out)
      (fun r hr => simple_learn_rules_mono m ins out hr) hg⟩
  | inject m names _ ih => exact simple_inject_goodRank names m ih
  | tick m _ ih =>
    obtain ⟨rank, bound, hg⟩ := ih
    exact ⟨_, bound + 1, simple_tick_goodRank hg⟩

theorem simple_noTrunc_node_iff {i : SimpleFlag.FlagId}
    {children : List SimpleFlag.TraceTree} :
    SimpleFlag.noTrunc (.node i children) = true ↔
      ∀ t ∈ children, SimpleFlag.noTrunc t = true := by
  rw [SimpleFlag.noTrunc]
  constructor
  · intro h t ht
    exact List.all_eq_true.mp h ⟨t, ht⟩ (List.mem_attach _ _)
  · intro h
    rw [List.all_eq_true]
    rintro ⟨t, ht⟩ -
    exact h t ht

theorem simple_leavesInput_node_nil {m : SimpleFlag.Mind}
    {i : SimpleFlag.FlagId} :
    SimpleFlag.leavesInput m (.node i []) =
      decide (m.active_memory i = some .input) := by
  rw [SimpleFlag.leavesInput]

theorem simple_leavesInput_node_cons_iff {m : SimpleFlag.Mind}
    {i : SimpleFlag.FlagId} {c : SimpleFlag.TraceTree}
    {cs : List SimpleFlag.TraceTree} :
    SimpleFlag.leavesInput m (.node i (c :: cs)) = true ↔
      ∀ t ∈ c :: cs, SimpleFlag.leavesInput m t = true := by
  rw [SimpleFlag.leavesInput]
  constructor
  · intro h t ht
    exact List.all_eq_true.mp h ⟨t, ht⟩ (List.mem_attach _ _)
  · intro h
    rw [List.all_eq_true]
    rintro ⟨t, ht⟩ -
    exact h t ht

theorem simple_buildTree_stable {m : SimpleFlag.Mind}
    {rank : SimpleFlag.FlagId → Nat} {bound : Nat}
    (hg : SimpleFlag.GoodRank m rank bound) :
    ∀ (n i f1 f2 : Nat), rank i < n → rank i < f1 → rank i < f2 →
      SimpleFlag.buildTree m f1 i = SimpleFlag.buildTree m f2 i := by
  intro n
  induction n with
  | zero =>
    intro i f1 f2 hn
    exact absurd hn (Nat.not_lt_zero _)
  | succ n ih =>
    intro i f1 f2 hn h1 h2
    rcases f1 with - | a
    · exact absurd h1 (Nat.not_lt_zero _)
    rcases f2 with - | b
    · exact absurd h2 (Nat.not_lt_zero _)
    rcases hmem : m.active_memory i with - | s
    · simp only [SimpleFlag.buildTree, hmem]
    · rcases s with - | cs
      · simp only [SimpleFlag.buildTree, hmem]
      · simp only [SimpleFlag.buildTree, hmem]
        congr 1
        apply List.map_congr_left
        intro c hc
        have hcr := (hg.2 i cs hmem).2 c hc
        exact ih c a b (lt_of_lt_of_le hcr.2 (Nat.lt_succ_iff.mp hn))
          (lt_of_lt_of_le hcr.2 (Nat.lt_succ_iff.mp h1))
          (lt_of_lt_of_le hcr.2 (Nat.lt_succ_iff.mp h2))

theorem simple_buildTree_noTrunc {m : SimpleFlag.Mind}
    {rank : SimpleFlag.FlagId → Nat} {bound : Nat}
    (hg : SimpleFlag.GoodRank m rank bound) :
    ∀ (n i f : Nat), rank i < n → rank i < f →
      SimpleFlag.noTrunc (SimpleFlag.buildTree m f i) = true := by
  intro n
  induction n with
  | zero =>
    intro i f hn
    exact absurd hn (Nat.not_lt_zero _)
  | succ n ih =>
    intro i f hn hf
    rcases f with - | a
    · exact absurd hf (Nat.not_lt_zero _)
    rcases hmem : m.active_memory i with - | s
    · simp only [SimpleFlag.buildTree, hmem]
      exact simple_noTrunc_node_iff.mpr (fun t ht => absurd ht (List.not_mem_nil t))
    · rcases s with - | cs
      · simp only [SimpleFlag.buildTree, hmem]
        exact simple_noTrunc_node_iff.mpr
          (fun t ht => absurd ht (List.not_mem_nil t))
      · simp only [SimpleFlag.buildTree, hmem]
        refine simple_noTrunc_node_iff.mpr ?_
        intro t ht
        obtain ⟨c, hc, rfl⟩ := List.mem_map.mp ht
        have hcr := (hg.2 i cs hmem).2 c hc
        exact ih c a (lt_of_lt_of_le hcr.2 (Nat.lt_succ_iff.mp hn))
          (lt_of_lt_of_le hcr.2 (Nat.lt_succ_iff.mp hf))

theorem simple_buildTree_leavesInput {m : SimpleFlag.Mind}
    {rank : SimpleFlag.FlagId → Nat} {bound : Nat}
    (hg : SimpleFlag.GoodRank m rank bound)
    (hne : ∀ r ∈ m.rules, r.triggers ≠ []) :
    ∀ (n i f : Nat), rank i < n → rank i < f →
      (m.active_memory i).isSome →
      SimpleFlag.leavesInput m (SimpleFlag.buildTree m f i) = true := by
  intro n
  induction n with
  | zero =>
    intro i f hn
    exact absurd hn (Nat.not_lt_zero _)
  | succ n ih =>
    intro i f hn hf hi
    rcases f with - | a
    · exact absurd hf (Nat.not_lt_zero _)
    rcases hmem : m.active_memory i with - | s
    · rw [hmem] at hi
      exact Bool.noConfusion hi
    · rcases s with - | cs
      · simp only [SimpleFlag.buildTree, hmem]
        rw [simple_leavesInput_node_nil, hmem]
        simp
      · obtain ⟨⟨r, hrr, hrt⟩, hcs⟩ := hg.2 i cs hmem
        have hcsne : cs ≠ [] := by
          rw [← hrt]
          exact hne r hrr
        obtain ⟨c0, ctail, rfl⟩ := List.exists_cons_of_ne_nil hcsne
        simp only [SimpleFlag.buildTree, hmem, List.map_cons]
        refine simple_leavesInput_node_cons_iff.mpr ?_
        intro t ht
        rw [← List.map_cons] at ht
        obtain ⟨c, hc, rfl⟩ := List.mem_map.mp ht
        have hcr := hcs c hc
        exact ih c a (lt_of_lt_of_le hcr.2 (Nat.lt_succ_iff.mp hn))
          (lt_of_lt_of_le hcr.2 (Nat.lt_succ_iff.mp hf)) hcr.1

theorem simple_causeStep_rank {m : SimpleFlag.Mind}
    {rank : SimpleFlag.FlagId → Nat} {bound : Nat}
    (hg : SimpleFlag.GoodRank m rank bound)
    {c d : SimpleFlag.FlagId} (h : SimpleFlag.CauseStep m c d) :
    rank c < rank d := by
  obtain ⟨cs, hmem, hc⟩ := h
  exact ((hg.2 d cs hmem).2 c hc).2

theorem simple_causes_acyclic {m : SimpleFlag.Mind}
    {rank : SimpleFlag.FlagId → Nat} {bound : Nat}
    (hg : SimpleFlag.GoodRank m rank bound) :
    ∀ i, ¬ Relation.TransGen (SimpleFlag.CauseStep m) i i := by
  have hlt : ∀ a b, Relation.TransGen (SimpleFlag.CauseStep m) a b →
      rank a < rank b := by
    intro a b h
    induction h with
    | single h => exact simple_causeStep_rank hg h
    | tail hab hbc ih => exact lt_trans ih (simple_causeStep_rank hg hbc)
  exact fun i hcon => lt_irrefl _ (hlt i i hcon)

/-- C6 counterexample: after `learn [] "X"` and one tick, `X` (id 1) is in
Active Memory with provenance `Derived { causes: [] }`.  Its explanation
tree is the single childless node `1` — a leaf — yet its provenance is not
`Input`, refuting "every leaf of the tree is a fact with Input provenance".
-/
theorem C6_counterexample :
    (SimpleFlag.Mind.new.learn [] "X").tick.fst.active_memory 1 =
      some (.derived []) ∧
    SimpleFlag.buildTree (SimpleFlag.Mind.new.learn [] "X").tick.fst 5 1 =
      .node 1 [] ∧
    SimpleFlag.leavesInput (SimpleFlag.Mind.new.learn [] "X").tick.fst
      (.node 1 []) = false := by
  refine ⟨by decide, rfl, ?_⟩
  rw [simple_leavesInput_node_nil]
  decide

/-- C6 (amended): for every reachable state — unconditionally — the cause
graph given by `Derived` provenance links is acyclic (the transitive cause
relation is irreflexive), and for every present fact the explanation tree
is finite: there is a recursion depth at which it is complete (no
truncation) and beyond which it no longer changes.  Only the leaf condition
carries a proviso: when every stored rule has a non-empty trigger list,
every leaf of that tree is an `Input`-provenance fact; an empty-trigger
rule instead yields a `Derived` leaf with an empty cause list. -/
theorem C6_amended_explanations_finite_acyclic (m : SimpleFlag.Mind)
    (hr : SimpleFlag.Reachable m) :
    (∀ i, ¬ Relation.TransGen (SimpleFlag.CauseStep m) i i) ∧
    ∀ i, (m.active_memory i).isSome →
      ∃ n, SimpleFlag.noTrunc (SimpleFlag.buildTree m n i) = true ∧
        (∀ k, n ≤ k →
          SimpleFlag.buildTree m k i = SimpleFlag.buildTree m n i) ∧
        ((∀ r ∈ m.rules, r.triggers ≠ []) →
          SimpleFlag.leavesInput m (SimpleFlag.buildTree m n i) = true) := by
  obtain ⟨rank, bound, hg⟩ := simple_reachable_goodRank hr
  refine ⟨simple_causes_acyclic hg, ?_⟩
  intro i hi
  refine ⟨rank i + 1, ?_, ?_, ?_⟩
  · exact simple_buildTree_noTrunc hg (rank i + 1) i (rank i + 1)
      (Nat.lt_succ_self _) (Nat.lt_succ_self _)
  · intro k hk
    exact simple_buildTree_stable hg (rank i + 1) i k (rank i + 1)
      (Nat.lt_succ_self _) (Nat.lt_of_lt_of_le (Nat.lt_succ_self _) hk)
      (Nat.lt_succ_self _)
  · intro hne
    exact simple_buildTree_leavesInput hg hne (rank i + 1) i (rank i + 1)
      (Nat.lt_succ_self _) (Nat.lt_succ_self _) hi

/-- C6 witness: the state reached by `learn ["A"] "B"; inject ["A"]; tick`
has `B` (id 2) derived from `A`; its explanation tree is finite and stable,
and — its one rule having non-empty triggers — has `Input` leaves. -/
theorem C6_witness :
    SimpleFlag.Reachable
      (((SimpleFlag.Mind.new.learn ["A"] "B").inject ["A"]).tick.fst) ∧
    ((((SimpleFlag.Mind.new.learn ["A"] "B").inject
      ["A"]).tick.fst).active_memory 2).isSome ∧
    (∀ r ∈ (((SimpleFlag.Mind.new.learn ["A"] "B").inject
      ["A"]).tick.fst).rules, r.triggers ≠ []) ∧
    ∃ n, SimpleFlag.noTrunc (SimpleFlag.buildTree
        (((SimpleFlag.Mind.new.learn ["A"] "B").inject ["A"]).tick.fst) n 2) =
          true ∧
      (∀ k, n ≤ k →
        SimpleFlag.buildTree
          (((SimpleFlag.Mind.new.learn ["A"] "B").inject ["A"]).tick.fst) k 2 =
        SimpleFlag.buildTree
          (((SimpleFlag.Mind.new.learn ["A"] "B").inject ["A"]).tick.fst) n 2) ∧
      SimpleFlag.leavesInput
        (((SimpleFlag.Mind.new.learn ["A"] "B").inject ["A"]).tick.fst)
        (SimpleFlag.buildTree
          (((SimpleFlag.Mind.new.learn ["A"] "B").inject ["A"]).tick.fst) n 2) =
          true := by
  have hreach : SimpleFlag.Reachable
      (((SimpleFlag.Mind.new.learn ["A"] "B").inject ["A"]).tick.fst) :=
    SimpleFlag.Reachable.tick _
      (SimpleFlag.Reachable.inject _ _
        (SimpleFlag.Reachable.learn _ _ _ SimpleFlag.Reachable.new))
  refine ⟨hreach, by decide, by decide, ?_⟩
  obtain ⟨n, h1, h2, h3⟩ :=
    (C6_amended_explanations_finite_acyclic _ hreach).2 2 (by decide)
  exact ⟨n, h1, h2, h3 (by decide)⟩
